import Mathlib

/-
Shallow embedding of the Promiventerator class (src/index.ts): a Promise
subclass that is simultaneously an event emitter and an async-iterable
replayable event stream.  The embedding is a pure state machine: every
relevant promise of the source is represented by an explicit one-shot cell
in the state, and the single-threaded cooperative scheduling of JavaScript
is represented by applying the operations as pure state transformers in
program order.  Listener callbacks are embedded as small syntactic bodies
(synchronous, asynchronous with a pending-completion token, throwing, or
synchronously re-emitting once), which is enough to express every claim
about dispatch, once-removal, re-entrant emission and the Promise.all
barrier of emit.
-/

set_option maxRecDepth 4000

namespace PV

/-- Event record appended to history and delivered to traversals: the event
name plus an optional payload, mirroring the eventData tuple built at the
top of Promiventerator.emit (payload absent models the one-element tuple). -/
structure EventRec where
  name : String
  payload : Option Nat
  deriving DecidableEq, Repr

/-- Behaviour of a registered listener callback when it is invoked.
syncB returns without suspending; asyncTok t returns a still-pending
completion identified by token t; throws throws synchronously; reemitOnce
n p synchronously calls emit n p on its first invocation (ignoring the
returned promise) and returns normally. -/
inductive Body where
  | syncB : Body
  | asyncTok : Nat → Body
  | throws : Body
  | reemitOnce : String → Option Nat → Body
  deriving DecidableEq, Repr

/-- A listener record stored in the per-event-name set: identity (object
identity of the record in the source), behaviour, and the single-fire flag
set by once. -/
structure Listener where
  lid : Nat
  body : Body
  once : Bool
  deriving DecidableEq, Repr

/-- Wait status of one async iterator: idle means resolveNext is null;
waitingLive means a pending next() stored resolveNext and its race against
endPromise is undecided; stale means resolveNext is still set although the
pending next() was already answered by the settled endPromise (the race was
won by endPromise, which leaves resolveNext assigned in the source). -/
inductive WaitSt where
  | idle : WaitSt
  | waitingLive : WaitSt
  | stale : WaitSt
  deriving DecidableEq, Repr

/-- One result observed by a traversal: an event record (done: false) or the
terminal signal (done: true) carrying an optional value (none models an
undefined value supplied to the iterator's return). -/
inductive TravRes where
  | ev : EventRec → TravRes
  | term : Option String → TravRes
  deriving DecidableEq, Repr

/-- Settled outcome of the outer promise, the one observed by awaiters of
the object itself. -/
inductive Settled where
  | ok : String → Settled
  | err : String → Settled
  deriving DecidableEq, Repr

/-- Per-iterator state: the private backlog queue (seeded from a snapshot of
the history), the resolveNext status, and the chronological log of results
this traversal has received from its next() calls. -/
structure IterSt where
  queue : List EventRec
  wait : WaitSt
  delivered : List TravRes
  deriving DecidableEq, Repr

/-- Outcome of invoking one listener: completed synchronously, returned a
pending completion (token), or threw synchronously. -/
inductive BodyOut where
  | okNow : BodyOut
  | pending : Nat → BodyOut
  | thrown : BodyOut
  deriving DecidableEq, Repr

/-- Result of the listener-dispatch loop inside emit. -/
inductive LoopRes where
  | finished : List BodyOut → LoopRes
  | thrownMid : List BodyOut → LoopRes
  | fuelOut : LoopRes
  deriving DecidableEq, Repr

/-- Result of one emit call.  ok toks had: the promise returned by emit
settles exactly when every pending listener completion in toks has settled
(Promise.all), and then yields the boolean had (whether any listener was
invoked).  threw: a listener threw synchronously, so the promise returned by
emit rejects.  outOfFuel is a modelling artefact for exhausted re-entrancy
fuel and never occurs in the scenarios proved below. -/
inductive EmitRes where
  | ok : List Nat → Bool → EmitRes
  | threw : EmitRes
  | outOfFuel : EmitRes
  deriving DecidableEq, Repr

/-- Whole-object state of one Promiventerator: the outer promise cell, the
endPromise cell, the public isDone and value fields, the append-only event
history, the set of active iterators (this.iterators, in insertion order,
by id), every iterator ever created (by id), the listener map, and two
bookkeeping logs of listener invocations (per-listener payload log and a
global invocation log) used to state dispatch-order claims. -/
structure PVState where
  isDone : Bool
  value : Option String
  promise : Option Settled
  endP : Option String
  eventHistory : List EventRec
  active : List Nat
  iters : List (Nat × IterSt)
  listeners : List (String × List Listener)
  calls : List (Nat × List (Option Nat))
  invLog : List (Nat × Option Nat)
  nextIterId : Nat
  deriving DecidableEq, Repr

/-- Look up the state of iterator i (association by id, first match). -/
def lookupIts : List (Nat × IterSt) → Nat → Option IterSt
  | [], _ => none
  | q :: rest, i => if q.1 = i then some q.2 else lookupIts rest i

/-- Update every entry of iterator i in place. -/
def updIter : List (Nat × IterSt) → Nat → (IterSt → IterSt) → List (Nat × IterSt)
  | [], _, _ => []
  | q :: rest, i, f => (if q.1 = i then (q.1, f q.2) else q) :: updIter rest i f

/-- Listener set registered for an event name (empty when the map has no
entry, as in getListeners before it inserts one). -/
def lookupL : List (String × List Listener) → String → List Listener
  | [], _ => []
  | q :: rest, n => if q.1 = n then q.2 else lookupL rest n

/-- Whether the listener map has an entry for the name. -/
def hasKeyL : List (String × List Listener) → String → Bool
  | [], _ => false
  | q :: rest, n => if q.1 = n then true else hasKeyL rest n

/-- Replace the listener set stored under a name (no-op when absent). -/
def setLs : List (String × List Listener) → String → List Listener → List (String × List Listener)
  | [], _, _ => []
  | q :: rest, n, v => (if q.1 = n then (q.1, v) else q) :: setLs rest n v

/-- Drop the map entry for a name (this.listeners.delete(eventName)). -/
def removeKeyL : List (String × List Listener) → String → List (String × List Listener)
  | [], _ => []
  | q :: rest, n => if q.1 = n then removeKeyL rest n else q :: removeKeyL rest n

/-- Remove the listener record with the given identity from a set
(listeners.delete(listener)). -/
def removeLid (i : Nat) : List Listener → List Listener
  | [] => []
  | ℓ :: rest => if ℓ.lid = i then removeLid i rest else ℓ :: removeLid i rest

/-- The sub-list of records that survive a full dispatch pass: exactly the
persistent (non-once) ones. -/
def keepMulti : List Listener → List Listener
  | [] => []
  | ℓ :: rest => if ℓ.once then keepMulti rest else ℓ :: keepMulti rest

/-- Payload log of listener i (empty when never invoked). -/
def callsOf : List (Nat × List (Option Nat)) → Nat → List (Option Nat)
  | [], _ => []
  | q :: rest, i => if q.1 = i then q.2 else callsOf rest i

/-- Append one received payload to the log of listener i. -/
def bumpCalls : List (Nat × List (Option Nat)) → Nat → Option Nat → List (Nat × List (Option Nat))
  | [], i, p => [(i, [p])]
  | q :: rest, i, p => if q.1 = i then (q.1, q.2 ++ [p]) :: rest else q :: bumpCalls rest i p

/-- The live Set iteration cursor of the dispatch loop: the first record, in
insertion order, of the current set that has not been visited yet. -/
def firstUnvisited (visited : List Nat) : List Listener → Option Listener
  | [] => none
  | ℓ :: rest => if ℓ.lid ∈ visited then firstUnvisited visited rest else some ℓ

/-- Effect of iterator.push on one iterator (emit fan-out): resolve the
pending next() if resolveNext is set and a next() is actually waiting,
silently consume the push if resolveNext is stale, otherwise enqueue. -/
def pushOne (e : EventRec) (st : IterSt) : IterSt :=
  match st.wait with
  | .waitingLive => { st with wait := .idle, delivered := st.delivered ++ [.ev e] }
  | .stale => { st with wait := .idle }
  | .idle => { st with queue := st.queue ++ [e] }

/-- Deliver an emitted event to every active iterator, in insertion order. -/
def pushAllIters : List Nat → List (Nat × IterSt) → EventRec → List (Nat × IterSt)
  | [], its, _ => its
  | i :: rest, its, e => pushAllIters rest (updIter its i (pushOne e)) e

/-- Effect on one iterator of the endPromise settling: every next() that is
suspended in the race receives the terminal signal, and its resolveNext
stays assigned (stale) exactly as in the source. -/
def settleOne (v : String) (st : IterSt) : IterSt :=
  match st.wait with
  | .waitingLive => { st with wait := .stale, delivered := st.delivered ++ [.term (some v)] }
  | _ => st

/-- The endResolver call: settle the endPromise cell if it is still pending
(first call wins; later calls are no-ops on an already settled promise) and
answer every next() currently racing against it. -/
def settleEnd (s : PVState) (v : String) : PVState :=
  match s.endP with
  | some _ => s
  | none =>
    { s with endP := some v, iters := s.iters.map (fun q => (q.1, settleOne v q.2)) }

/-- The resolve wrapper installed by the constructor (applied after
construction has completed): it fires endResolver, unconditionally sets
isDone and value, and resolves the outer promise, whose own settlement is
idempotent. -/
def resolveF (s : PVState) (v : String) : PVState :=
  let s1 := settleEnd s v
  { s1 with
    isDone := true
    value := some v
    promise := match s1.promise with
      | none => some (.ok v)
      | some o => some o }

/-- The reject callback: it is handed to the executor unwrapped, so it only
settles the outer promise (idempotently) and touches nothing else. -/
def rejectF (s : PVState) (e : String) : PVState :=
  { s with promise := match s.promise with
      | none => some (.err e)
      | some o => some o }

/-- Symbol.asyncIterator: allocate a fresh iterator whose backlog queue is a
copy of the current event history, and register it in this.iterators. -/
def createIterator (s : PVState) : Nat × PVState :=
  let i := s.nextIterId
  (i, { s with
         nextIterId := i + 1
         iters := s.iters ++ [(i, ⟨s.eventHistory, .idle, []⟩)]
         active := s.active ++ [i] })

/-- Effect of one next() call on the iterator's own state: pop the backlog
front if non-empty; otherwise race endPromise against a fresh resolveNext
assignment (if endPromise is already settled the race yields the terminal
signal at once and resolveNext is left assigned, i.e. stale). -/
def nextOne (endP : Option String) (st : IterSt) : IterSt :=
  match st.queue with
  | e :: rest => { st with queue := rest, delivered := st.delivered ++ [.ev e] }
  | [] =>
    match endP with
    | some v => { st with wait := .stale, delivered := st.delivered ++ [.term (some v)] }
    | none => { st with wait := .waitingLive }

/-- next() of the iterator object returned by Symbol.asyncIterator. -/
def nextFn (s : PVState) (i : Nat) : PVState :=
  { s with iters := updIter s.iters i (nextOne s.endP) }

/-- iterator.done, called by return: answer a pending next() with the
terminal signal built from the value handed to return (possibly undefined),
and clear resolveNext. -/
def doneOne (v : Option String) (st : IterSt) : IterSt :=
  match st.wait with
  | .waitingLive => { st with wait := .idle, delivered := st.delivered ++ [.term v] }
  | .stale => { st with wait := .idle }
  | .idle => st

/-- return(value?) of the iterator: deregister the iterator, answer its own
pending next() with the terminal signal, and, when a value was supplied and
isDone is still false, fire endResolver with that value. -/
def returnF (s : PVState) (i : Nat) (v : Option String) : PVState :=
  let s1 := { s with
               active := s.active.filter (fun j => j ≠ i)
               iters := updIter s.iters i (doneOne v) }
  match v with
  | some vv => if s1.isDone then s1 else settleEnd s1 vv
  | none => s1

/-- getListeners: make sure the map owns a (possibly empty) set for the
name. -/
def ensureLs (s : PVState) (n : String) : PVState :=
  if hasKeyL s.listeners n then s else { s with listeners := s.listeners ++ [(n, [])] }

/-- Record one listener invocation: append the payload it was passed to its
per-listener log and to the global invocation log. -/
def addCall (s : PVState) (i : Nat) (p : Option Nat) : PVState :=
  { s with calls := bumpCalls s.calls i p, invLog := s.invLog ++ [(i, p)] }

/-- Run one listener body.  rec is the emit operation available to a
re-entrant body (one recursion level below the current one). -/
def runBodyCore (rec : PVState → String → Option Nat → EmitRes × PVState)
    (s : PVState) (selfId : Nat) : Body → BodyOut × PVState
  | .syncB => (.okNow, s)
  | .asyncTok t => (.pending t, s)
  | .throws => (.thrown, s)
  | .reemitOnce n p =>
    if (callsOf s.calls selfId).length = 1 then (.okNow, (rec s n p).2)
    else (.okNow, s)

/-- The dispatch loop of emit over the live listener set: repeatedly take
the first not-yet-visited record of the current set, invoke it, collect its
completion, and delete it right away when it is single-fire.  k bounds the
number of loop iterations (the set never grows during dispatch, so the
initial set size plus one suffices). -/
def loopGo (rec : PVState → String → Option Nat → EmitRes × PVState)
    (n : String) (p : Option Nat) :
    Nat → PVState → List Nat → List BodyOut → LoopRes × PVState
  | 0, s, _, _ => (.fuelOut, s)
  | k + 1, s, visited, proms =>
    match firstUnvisited visited (lookupL s.listeners n) with
    | none => (.finished proms, s)
    | some ℓ =>
      let s1 := addCall s ℓ.lid p
      let r := runBodyCore rec s1 ℓ.lid ℓ.body
      match r.1 with
      | .thrown => (.thrownMid proms, r.2)
      | _ =>
        let s3 := if ℓ.once
          then { r.2 with listeners := setLs r.2.listeners n (removeLid ℓ.lid (lookupL r.2.listeners n)) }
          else r.2
        loopGo rec n p k s3 (visited ++ [ℓ.lid]) (proms ++ [r.1])

/-- The pending-completion tokens among the collected listener outcomes:
what Promise.all inside emit still has to wait for. -/
def pendToksFromOuts : List BodyOut → List Nat
  | [] => []
  | .pending t :: rest => t :: pendToksFromOuts rest
  | _ :: rest => pendToksFromOuts rest

/-- One emit call, given the emit operation rec available to re-entrant
listener bodies: build the event record, append it to history, push it to
every active iterator, then run the dispatch loop, mirror the map cleanup
of empty sets, and package the Promise.all barrier result. -/
def emitCore (rec : PVState → String → Option Nat → EmitRes × PVState)
    (s : PVState) (n : String) (p : Option Nat) : EmitRes × PVState :=
  let e : EventRec := ⟨n, p⟩
  let s1 := { s with eventHistory := s.eventHistory ++ [e] }
  let s2 := { s1 with iters := pushAllIters s1.active s1.iters e }
  let s3 := ensureLs s2 n
  match loopGo rec n p ((lookupL s3.listeners n).length + 1) s3 [] [] with
  | (.finished proms, s4) =>
    let s5 := match lookupL s4.listeners n with
      | [] => { s4 with listeners := removeKeyL s4.listeners n }
      | _ :: _ => s4
    (.ok (pendToksFromOuts proms) (!proms.isEmpty), s5)
  | (.thrownMid _, s4) => (.threw, s4)
  | (.fuelOut, s4) => (.outOfFuel, s4)

/-- emit with an explicit bound on re-entrant emission depth.  Fuel 1 fully
runs any emit whose listeners do not re-enter emit. -/
def emitFuel : Nat → PVState → String → Option Nat → EmitRes × PVState
  | 0, s, _, _ => (.outOfFuel, s)
  | f + 1, s, n, p => emitCore (emitFuel f) s n p

/-- The freshly constructed object, before the executor has caused any
settlement, emission or registration. -/
def initState : PVState :=
  { isDone := false
    value := none
    promise := none
    endP := none
    eventHistory := []
    active := []
    iters := []
    listeners := []
    calls := []
    invLog := []
    nextIterId := 0 }

/-- Add a listener record under a name (getListeners followed by
listeners.add). -/
def addL (ls : List (String × List Listener)) (n : String) (ℓ : Listener) :
    List (String × List Listener) :=
  if hasKeyL ls n then setLs ls n (lookupL ls n ++ [ℓ]) else ls ++ [(n, [ℓ])]

/-- on(eventName, fn): register a persistent listener. -/
def onF (s : PVState) (n : String) (id : Nat) (b : Body) : PVState :=
  { s with listeners := addL s.listeners n ⟨id, b, false⟩ }

/-- once(eventName, fn): register a single-fire listener. -/
def onceF (s : PVState) (n : String) (id : Nat) (b : Body) : PVState :=
  { s with listeners := addL s.listeners n ⟨id, b, true⟩ }

/-- emit on an object whose listeners never re-enter emit (fuel 1), keeping
only the state. -/
def emitP (s : PVState) (e : EventRec) : PVState :=
  (emitFuel 1 s e.name e.payload).2

/-- Results delivered so far to traversal i, in order of delivery. -/
def deliveredOf (s : PVState) (i : Nat) : List TravRes :=
  match lookupIts s.iters i with
  | some st => st.delivered
  | none => []

/-- Wait status of traversal i. -/
def waitOf (s : PVState) (i : Nat) : Option WaitSt :=
  (lookupIts s.iters i).map IterSt.wait

/-- Backlog queue of traversal i. -/
def queueOf (s : PVState) (i : Nat) : List EventRec :=
  match lookupIts s.iters i with
  | some st => st.queue
  | none => []

/-- Bodies that neither throw nor re-enter emit: a plain synchronous
callback or an asynchronous one with a pending completion. -/
def simpleBody : Body → Bool
  | .syncB => true
  | .asyncTok _ => true
  | _ => false

/-- Bodies that may throw but do not re-enter emit. -/
def plainBody : Body → Bool
  | .syncB => true
  | .asyncTok _ => true
  | .throws => true
  | _ => false

/-- Expected invocation outcome of a listener with a non-throwing,
non-re-entrant body. -/
def outcomeOf (ℓ : Listener) : BodyOut :=
  match ℓ.body with
  | .asyncTok t => .pending t
  | _ => .okNow

/-- Pending-completion tokens contributed by a listener list: one per
asynchronous listener, in registration order. -/
def pendToksOf : List Listener → List Nat
  | [] => []
  | ℓ :: rest =>
    match ℓ.body with
    | .asyncTok t => t :: pendToksOf rest
    | _ => pendToksOf rest

/-- Cumulative effect of a dispatch pass on the per-listener payload logs. -/
def bumpAll (p : Option Nat) : List (Nat × List (Option Nat)) → List Listener → List (Nat × List (Option Nat))
  | c, [] => c
  | c, ℓ :: rest => bumpAll p (bumpCalls c ℓ.lid p) rest

/-- The fields of the state that listener dispatch never writes: everything
except the listener map and the two invocation logs. -/
def frameOf (s : PVState) : Bool × Option String × Option Settled × Option String ×
    List EventRec × List Nat × List (Nat × IterSt) × Nat :=
  (s.isDone, s.value, s.promise, s.endP, s.eventHistory, s.active, s.iters, s.nextIterId)

/-- Apply a state transformer n times. -/
def repN : Nat → (PVState → PVState) → PVState → PVState
  | 0, _, s => s
  | k + 1, f, s => repN k f (f s)

/-- The state of an object with no listeners and a single traversal (id 0):
history H, backlog q, wait status w and delivery log D, with the future
still pending.  Every intermediate state of the replay scenario has this
shape. -/
def baseSt (H q : List EventRec) (w : WaitSt) (D : List TravRes) : PVState :=
  { isDone := false
    value := none
    promise := none
    endP := none
    eventHistory := H
    active := [0]
    iters := [(0, ⟨q, w, D⟩)]
    listeners := []
    calls := []
    invLog := []
    nextIterId := 1 }

/-- The replay scenario of the spec: emit pre before any traversal exists,
start a traversal, drain its backlog with pre.length advance calls, then for
each live event suspend an advance and emit the event, and finally resolve
the future with v and advance once more. -/
def scenC1 (pre live : List EventRec) (v : String) : PVState :=
  let s1 := pre.foldl emitP initState
  let s2 := (createIterator s1).2
  let s3 := repN pre.length (fun s => nextFn s 0) s2
  let s4 := live.foldl (fun s e => emitP (nextFn s 0) e) s3
  nextFn (resolveF s4 v) 0

/-! Helper lemmas about the association-list operations of the state. -/

theorem lookupIts_updIter_self (its : List (Nat × IterSt)) (i : Nat) (f : IterSt → IterSt) :
    lookupIts (updIter its i f) i = (lookupIts its i).map f := by
  induction its with
  | nil => rfl
  | cons q rest ih =>
    by_cases h : q.1 = i <;> simp [updIter, lookupIts, h, ih]

theorem lookupIts_updIter_other (its : List (Nat × IterSt)) (i j : Nat) (f : IterSt → IterSt)
    (h : j ≠ i) : lookupIts (updIter its i f) j = lookupIts its j := by
  induction its with
  | nil => rfl
  | cons q rest ih =>
    by_cases hqj : q.1 = j
    · have hqi : ¬ q.1 = i := by rw [hqj]; exact h
      simp [updIter, lookupIts, hqi, hqj, h]
    · by_cases hqi : q.1 = i
      · simp [updIter, lookupIts, hqi, hqj, Ne.symm h, ih]
      · simp [updIter, lookupIts, hqi, hqj, ih]

theorem pushAllIters_not_mem (act : List Nat) (its : List (Nat × IterSt)) (e : EventRec)
    (i : Nat) (h : i ∉ act) :
    lookupIts (pushAllIters act its e) i = lookupIts its i := by
  induction act generalizing its with
  | nil => rfl
  | cons a rest ih =>
    simp only [List.mem_cons, not_or] at h
    rw [pushAllIters, ih _ h.2, lookupIts_updIter_other _ _ _ _ h.1]

theorem pushAllIters_mem (act : List Nat) (its : List (Nat × IterSt)) (e : EventRec)
    (i : Nat) (h : i ∈ act) (hnd : act.Nodup) :
    lookupIts (pushAllIters act its e) i = (lookupIts its i).map (pushOne e) := by
  induction act generalizing its with
  | nil => cases h
  | cons a rest ih =>
    rcases List.mem_cons.mp h with h1 | h2
    · subst h1
      rw [pushAllIters, pushAllIters_not_mem _ _ _ _ (List.nodup_cons.mp hnd).1,
        lookupIts_updIter_self]
    · have hne : i ≠ a := fun hh => (List.nodup_cons.mp hnd).1 (hh ▸ h2)
      rw [pushAllIters, ih _ h2 (List.nodup_cons.mp hnd).2,
        lookupIts_updIter_other _ _ _ _ hne]

theorem lookupIts_append_fresh (its : List (Nat × IterSt)) (i : Nat) (st : IterSt)
    (h : ∀ q ∈ its, q.1 ≠ i) : lookupIts (its ++ [(i, st)]) i = some st := by
  induction its with
  | nil => simp [lookupIts]
  | cons q rest ih =>
    have hq : ¬ q.1 = i := h q (List.mem_cons_self _ _)
    simp only [List.cons_append, lookupIts, hq, if_false]
    exact ih fun q2 hq2 => h q2 (List.mem_cons_of_mem _ hq2)

theorem lookupL_setLs_self (ls : List (String × List Listener)) (n : String)
    (v : List Listener) (hk : hasKeyL ls n = true) :
    lookupL (setLs ls n v) n = v := by
  induction ls with
  | nil => simp [hasKeyL] at hk
  | cons q rest ih =>
    by_cases h : q.1 = n
    · simp [setLs, lookupL, h]
    · simp only [hasKeyL, h, if_false] at hk
      simp [setLs, lookupL, h, ih hk]

theorem lookupL_setLs_other (ls : List (String × List Listener)) (n m : String)
    (v : List Listener) (h : m ≠ n) :
    lookupL (setLs ls n v) m = lookupL ls m := by
  induction ls with
  | nil => rfl
  | cons q rest ih =>
    by_cases hqm : q.1 = m
    · have hqn : ¬ q.1 = n := by rw [hqm]; exact h
      simp [setLs, lookupL, hqn, hqm, h]
    · by_cases hqn : q.1 = n
      · simp [setLs, lookupL, hqn, hqm, Ne.symm h, ih]
      · simp [setLs, lookupL, hqn, hqm, ih]

theorem setLs_absent (ls : List (String × List Listener)) (n : String) (v : List Listener)
    (h : hasKeyL ls n = false) : setLs ls n v = ls := by
  induction ls with
  | nil => rfl
  | cons q rest ih =>
    by_cases hq : q.1 = n
    · simp [hasKeyL, hq] at h
    · simp only [hasKeyL, hq, if_false] at h
      simp [setLs, hq, ih h]

theorem setLs_setLs (ls : List (String × List Listener)) (n : String) (v w : List Listener) :
    setLs (setLs ls n v) n w = setLs ls n w := by
  induction ls with
  | nil => rfl
  | cons q rest ih =>
    by_cases hq : q.1 = n <;> simp [setLs, hq, ih]

theorem setLs_keys (ls : List (String × List Listener)) (n : String) (v : List Listener) :
    (setLs ls n v).map Prod.fst = ls.map Prod.fst := by
  induction ls with
  | nil => rfl
  | cons q rest ih =>
    by_cases hq : q.1 = n <;> simp [setLs, hq, ih]

theorem hasKeyL_false_of_not_mem (ls : List (String × List Listener)) (n : String)
    (h : n ∉ ls.map Prod.fst) : hasKeyL ls n = false := by
  induction ls with
  | nil => rfl
  | cons q rest ih =>
    simp only [List.map_cons, List.mem_cons, not_or] at h
    have hq : ¬ q.1 = n := fun hh => h.1 hh.symm
    simp [hasKeyL, hq, ih h.2]

theorem not_mem_keys_of_hasKeyL_false (ls : List (String × List Listener)) (n : String)
    (h : hasKeyL ls n = false) : n ∉ ls.map Prod.fst := by
  induction ls with
  | nil => simp
  | cons q rest ih =>
    by_cases hq : q.1 = n
    · simp [hasKeyL, hq] at h
    · simp only [hasKeyL, hq, if_false] at h
      simp only [List.map_cons, List.mem_cons, not_or]
      exact ⟨fun hh => hq hh.symm, ih h⟩

theorem setLs_lookup_id (ls : List (String × List Listener)) (n : String)
    (hk : (ls.map Prod.fst).Nodup) : setLs ls n (lookupL ls n) = ls := by
  induction ls with
  | nil => rfl
  | cons q rest ih =>
    rcases List.nodup_cons.mp hk with ⟨hq, hrest⟩
    by_cases h : q.1 = n
    · have habs : hasKeyL rest n = false := by
        apply hasKeyL_false_of_not_mem
        rw [← h]; exact hq
      simp only [setLs, lookupL]
      simp only [if_pos h]
      rw [setLs_absent _ _ _ habs]
    · simp [setLs, lookupL, h, ih hrest]

theorem lookupL_absent (ls : List (String × List Listener)) (n : String)
    (h : hasKeyL ls n = false) : lookupL ls n = [] := by
  induction ls with
  | nil => rfl
  | cons q rest ih =>
    by_cases hq : q.1 = n
    · simp [hasKeyL, hq] at h
    · simp only [hasKeyL, hq, if_false] at h
      simp [lookupL, hq, ih h]

theorem hasKeyL_of_lookupL_ne_nil (ls : List (String × List Listener)) (n : String)
    (h : lookupL ls n ≠ []) : hasKeyL ls n = true := by
  by_cases hk : hasKeyL ls n = true
  · exact hk
  · exact absurd (lookupL_absent ls n (by simpa using hk)) h

theorem lookupL_append_absent (ls : List (String × List Listener)) (n : String)
    (v : List Listener) (h : hasKeyL ls n = false) :
    lookupL (ls ++ [(n, v)]) n = v := by
  induction ls with
  | nil => simp [lookupL]
  | cons q rest ih =>
    by_cases hq : q.1 = n
    · simp [hasKeyL, hq] at h
    · simp only [hasKeyL, hq, if_false] at h
      simp [lookupL, hq, ih h]

theorem mem_lookupL_setLs (ls : List (String × List Listener)) (n m : String)
    (v : List Listener) (ℓ : Listener) (h : ℓ ∈ lookupL (setLs ls n v) m) :
    ℓ ∈ lookupL ls m ∨ ℓ ∈ v := by
  induction ls with
  | nil => exact absurd h (by simp [setLs, lookupL])
  | cons q rest ih =>
    by_cases hqn : q.1 = n
    · by_cases hqm : q.1 = m
      · have hnm : n = m := by rw [← hqn]; exact hqm
        simp [setLs, lookupL, hqn, hnm] at h
        exact Or.inr h
      · have hnm : ¬ n = m := fun hh => hqm (by rw [hqn]; exact hh)
        simp [setLs, lookupL, hqn, hnm] at h
        simp [lookupL, hqm]
        exact ih h
    · by_cases hqm : q.1 = m
      · have hmn : ¬ m = n := fun hh => hqn (hqm.trans hh)
        simp [setLs, lookupL, hqn, hqm, hmn] at h
        simp [lookupL, hqm]
        exact Or.inl h
      · simp [setLs, lookupL, hqn, hqm] at h
        simp [lookupL, hqm]
        exact ih h

theorem removeLid_not_mem (i : Nat) (L : List Listener) (h : i ∉ L.map Listener.lid) :
    removeLid i L = L := by
  induction L with
  | nil => rfl
  | cons ℓ rest ih =>
    simp only [List.map_cons, List.mem_cons, not_or] at h
    have hne : ¬ ℓ.lid = i := fun hh => h.1 hh.symm
    simp [removeLid, hne, ih h.2]

theorem removeLid_split (K T : List Listener) (r : Listener)
    (hK : r.lid ∉ K.map Listener.lid) (hT : r.lid ∉ T.map Listener.lid) :
    removeLid r.lid (K ++ r :: T) = K ++ T := by
  induction K with
  | nil => simp [removeLid, removeLid_not_mem _ _ hT]
  | cons k rest ih =>
    simp only [List.map_cons, List.mem_cons, not_or] at hK
    have hne : ¬ k.lid = r.lid := fun hh => hK.1 hh.symm
    simp [removeLid, hne, ih hK.2]

theorem removeLid_subset (i : Nat) (L : List Listener) (ℓ : Listener)
    (h : ℓ ∈ removeLid i L) : ℓ ∈ L := by
  induction L with
  | nil => exact absurd h (by simp [removeLid])
  | cons k rest ih =>
    by_cases hk : k.lid = i
    · simp only [removeLid, hk, if_pos] at h
      exact List.mem_cons_of_mem _ (ih (by simpa [hk] using h))
    · simp only [removeLid, hk, if_false, List.mem_cons] at h
      rcases h with h1 | h2
      · exact h1 ▸ List.mem_cons_self _ _
      · exact List.mem_cons_of_mem _ (ih h2)

theorem firstUnvisited_none (visited : List Nat) (L : List Listener)
    (h : ∀ ℓ ∈ L, ℓ.lid ∈ visited) : firstUnvisited visited L = none := by
  induction L with
  | nil => rfl
  | cons ℓ rest ih =>
    have hm : ℓ.lid ∈ visited := h ℓ (List.mem_cons_self _ _)
    simp only [firstUnvisited, if_pos hm]
    exact ih fun ℓ2 h2 => h ℓ2 (List.mem_cons_of_mem _ h2)

theorem firstUnvisited_spec (visited : List Nat) (K T : List Listener) (r : Listener)
    (hK : ∀ ℓ ∈ K, ℓ.lid ∈ visited) (hr : r.lid ∉ visited) :
    firstUnvisited visited (K ++ r :: T) = some r := by
  induction K with
  | nil => simp [firstUnvisited, hr]
  | cons k rest ih =>
    have hm : k.lid ∈ visited := hK k (List.mem_cons_self _ _)
    simp only [List.cons_append, firstUnvisited, if_pos hm]
    exact ih fun ℓ2 h2 => hK ℓ2 (List.mem_cons_of_mem _ h2)

theorem firstUnvisited_mem (visited : List Nat) (L : List Listener) (ℓ : Listener)
    (h : firstUnvisited visited L = some ℓ) : ℓ ∈ L := by
  induction L with
  | nil => exact absurd h (by simp [firstUnvisited])
  | cons k rest ih =>
    by_cases hk : k.lid ∈ visited
    · simp only [firstUnvisited, if_pos hk] at h
      exact List.mem_cons_of_mem _ (ih h)
    · simp only [firstUnvisited, if_neg hk, Option.some.injEq] at h
      exact h ▸ List.mem_cons_self _ _

theorem pendToksFromOuts_map (L : List Listener)
    (h : ∀ ℓ ∈ L, simpleBody ℓ.body = true) :
    pendToksFromOuts (L.map outcomeOf) = pendToksOf L := by
  induction L with
  | nil => rfl
  | cons ℓ rest ih =>
    have hrest := ih fun ℓ2 h2 => h ℓ2 (List.mem_cons_of_mem _ h2)
    have hℓ := h ℓ (List.mem_cons_self _ _)
    cases hb : ℓ.body with
    | syncB => simp [outcomeOf, pendToksFromOuts, pendToksOf, hb, hrest]
    | asyncTok t => simp [outcomeOf, pendToksFromOuts, pendToksOf, hb, hrest]
    | throws => rw [hb] at hℓ; simp [simpleBody] at hℓ
    | reemitOnce n p => rw [hb] at hℓ; simp [simpleBody] at hℓ

theorem map_outcome_isEmpty (L : List Listener) :
    (L.map outcomeOf).isEmpty = L.isEmpty := by
  cases L <;> simp

theorem callsOf_bumpCalls_self (c : List (Nat × List (Option Nat))) (i : Nat) (p : Option Nat) :
    callsOf (bumpCalls c i p) i = callsOf c i ++ [p] := by
  induction c with
  | nil => simp [bumpCalls, callsOf]
  | cons q rest ih =>
    by_cases hq : q.1 = i <;> simp [bumpCalls, callsOf, hq, ih]

theorem callsOf_bumpCalls_other (c : List (Nat × List (Option Nat))) (i j : Nat) (p : Option Nat)
    (h : j ≠ i) : callsOf (bumpCalls c i p) j = callsOf c j := by
  induction c with
  | nil => simp [bumpCalls, callsOf, Ne.symm h]
  | cons q rest ih =>
    by_cases hqj : q.1 = j
    · have hqi : ¬ q.1 = i := by rw [hqj]; exact h
      simp [bumpCalls, callsOf, hqi, hqj, h]
    · by_cases hqi : q.1 = i
      · simp [bumpCalls, callsOf, hqi, hqj, Ne.symm h]
      · simp [bumpCalls, callsOf, hqi, hqj, ih]

/-! The dispatch loop of emit: frame preservation and full characterisation. -/

theorem loopGo_keeps (rec : PVState → String → Option Nat → EmitRes × PVState)
    (n : String) (p : Option Nat) :
    ∀ (k : Nat) (s : PVState) (visited : List Nat) (proms : List BodyOut),
    (∀ ℓ ∈ lookupL s.listeners n, plainBody ℓ.body = true) →
    (loopGo rec n p k s visited proms).2.eventHistory = s.eventHistory ∧
    (loopGo rec n p k s visited proms).2.iters = s.iters := by
  intro k
  induction k with
  | zero => intro s visited proms _; exact ⟨rfl, rfl⟩
  | succ k ih =>
    intro s visited proms hb
    cases hfu : firstUnvisited visited (lookupL s.listeners n) with
    | none => simp [loopGo, hfu]
    | some ℓ =>
      have hmem := firstUnvisited_mem _ _ _ hfu
      have hbody := hb ℓ hmem
      cases hbd : ℓ.body with
      | syncB =>
        simp only [loopGo, hfu, hbd, runBodyCore]
        by_cases ho : ℓ.once
        · simp only [ho, if_true]
          have := ih { addCall s ℓ.lid p with
              listeners := setLs (addCall s ℓ.lid p).listeners n
                (removeLid ℓ.lid (lookupL (addCall s ℓ.lid p).listeners n)) }
            (visited ++ [ℓ.lid]) (proms ++ [.okNow]) (by
              intro ℓ2 h2
              simp only [addCall] at h2
              rcases mem_lookupL_setLs _ _ _ _ _ h2 with h3 | h3
              · exact hb ℓ2 h3
              · exact hb ℓ2 (removeLid_subset _ _ _ h3))
          simpa [addCall] using this
        · simp only [ho, if_false]
          have := ih (addCall s ℓ.lid p) (visited ++ [ℓ.lid]) (proms ++ [.okNow]) (by
            intro ℓ2 h2
            simp only [addCall] at h2
            exact hb ℓ2 h2)
          simpa [addCall] using this
      | asyncTok t =>
        simp only [loopGo, hfu, hbd, runBodyCore]
        by_cases ho : ℓ.once
        · simp only [ho, if_true]
          have := ih { addCall s ℓ.lid p with
              listeners := setLs (addCall s ℓ.lid p).listeners n
                (removeLid ℓ.lid (lookupL (addCall s ℓ.lid p).listeners n)) }
            (visited ++ [ℓ.lid]) (proms ++ [.pending t]) (by
              intro ℓ2 h2
              simp only [addCall] at h2
              rcases mem_lookupL_setLs _ _ _ _ _ h2 with h3 | h3
              · exact hb ℓ2 h3
              · exact hb ℓ2 (removeLid_subset _ _ _ h3))
          simpa [addCall] using this
        · simp only [ho, if_false]
          have := ih (addCall s ℓ.lid p) (visited ++ [ℓ.lid]) (proms ++ [.pending t]) (by
            intro ℓ2 h2
            simp only [addCall] at h2
            exact hb ℓ2 h2)
          simpa [addCall] using this
      | throws =>
        simp [loopGo, hfu, hbd, runBodyCore, addCall]
      | reemitOnce n2 p2 =>
        rw [hbd] at hbody
        simp [plainBody] at hbody

theorem loopGo_step (rec : PVState → String → Option Nat → EmitRes × PVState)
    (n : String) (p : Option Nat) (k : Nat) (s : PVState) (visited : List Nat)
    (proms : List BodyOut) (r : Listener)
    (hfu : firstUnvisited visited (lookupL s.listeners n) = some r)
    (hsb : simpleBody r.body = true) :
    loopGo rec n p (k + 1) s visited proms =
      loopGo rec n p k
        (if r.once
         then { addCall s r.lid p with
                listeners := setLs (addCall s r.lid p).listeners n
                  (removeLid r.lid (lookupL (addCall s r.lid p).listeners n)) }
         else addCall s r.lid p)
        (visited ++ [r.lid]) (proms ++ [outcomeOf r]) := by
  rcases hb : r.body with _ | t | _ | _
  · simp [loopGo, hfu, runBodyCore, hb, outcomeOf]
  · simp [loopGo, hfu, runBodyCore, hb, outcomeOf]
  · rw [hb] at hsb; simp [simpleBody] at hsb
  · rw [hb] at hsb; simp [simpleBody] at hsb

theorem loopGo_run (rec : PVState → String → Option Nat → EmitRes × PVState)
    (n : String) (p : Option Nat) (R : List Listener) :
    ∀ (K : List Listener) (k : Nat) (s : PVState) (visited : List Nat) (proms : List BodyOut),
    lookupL s.listeners n = K ++ R →
    (((K ++ R).map Listener.lid).Nodup) →
    ((s.listeners.map Prod.fst).Nodup) →
    (∀ ℓ ∈ R, simpleBody ℓ.body = true) →
    (∀ ℓ ∈ K, ℓ.lid ∈ visited) →
    (∀ ℓ ∈ R, ℓ.lid ∉ visited) →
    R.length < k →
    loopGo rec n p k s visited proms =
      (.finished (proms ++ R.map outcomeOf),
       { s with
          listeners := setLs s.listeners n (K ++ keepMulti R)
          calls := bumpAll p s.calls R
          invLog := s.invLog ++ R.map fun ℓ => (ℓ.lid, p) }) := by
  induction R with
  | nil =>
    intro K k s visited proms hset hnd hkeys hsimple hvisK hvisR hk
    match k, hk with
    | k + 1, _ =>
      have hset' : lookupL s.listeners n = K := by simpa using hset
      have h1 : firstUnvisited visited (lookupL s.listeners n) = none := by
        rw [hset']
        exact firstUnvisited_none _ _ hvisK
      simp only [loopGo, h1, keepMulti, bumpAll, List.map_nil, List.append_nil, ← hset',
        setLs_lookup_id _ _ hkeys]
  | cons r T ih =>
    intro K k s visited proms hset hnd hkeys hsimple hvisK hvisR hk
    match k, hk with
    | k + 1, hk =>
      have hrvis : r.lid ∉ visited := hvisR r (List.mem_cons_self _ _)
      have hsb : simpleBody r.body = true := hsimple r (List.mem_cons_self _ _)
      have hfu : firstUnvisited visited (lookupL s.listeners n) = some r := by
        rw [hset]
        exact firstUnvisited_spec _ _ _ _ hvisK hrvis
      have h1 : ((K.map Listener.lid) ++ (r.lid :: T.map Listener.lid)).Nodup := by
        simpa using hnd
      rcases List.nodup_append.mp h1 with ⟨hndK, hndRT, hdisj⟩
      rcases List.nodup_cons.mp hndRT with ⟨hrT, hndT⟩
      have hrK : r.lid ∉ K.map Listener.lid := fun hm => hdisj hm (List.mem_cons_self _ _)
      have hkey : hasKeyL s.listeners n = true := by
        apply hasKeyL_of_lookupL_ne_nil
        rw [hset]
        simp
      have hsimpleT : ∀ ℓ ∈ T, simpleBody ℓ.body = true :=
        fun ℓ h2 => hsimple ℓ (List.mem_cons_of_mem _ h2)
      have hvisT : ∀ ℓ ∈ T, ℓ.lid ∉ visited ++ [r.lid] := by
        intro ℓ h2
        simp only [List.mem_append, List.mem_singleton, not_or]
        refine ⟨hvisR ℓ (List.mem_cons_of_mem _ h2), ?_⟩
        intro hh
        exact hrT (hh ▸ List.mem_map_of_mem Listener.lid h2)
      have hkT : T.length < k := by
        simp only [List.length_cons] at hk
        omega
      rw [loopGo_step rec n p k s visited proms r hfu hsb]
      by_cases ho : r.once
      · simp only [ho, if_true]
        rw [ih K k _ (visited ++ [r.lid]) (proms ++ [outcomeOf r])
          (by
            simp only [addCall, hset]
            rw [removeLid_split _ _ _ hrK hrT]
            exact lookupL_setLs_self _ _ _ hkey)
          (by
            refine List.Nodup.sublist ?_ hnd
            refine List.Sublist.map _ (List.Sublist.append_left ?_ K)
            exact List.sublist_cons_self _ T)
          (by simp only [addCall, setLs_keys]; exact hkeys)
          hsimpleT
          (fun ℓ h2 => List.mem_append_left _ (hvisK ℓ h2))
          hvisT
          hkT]
        simp [addCall, hset, removeLid_split _ _ _ hrK hrT, setLs_setLs, keepMulti, ho,
          bumpAll, List.append_assoc]
      · simp only [ho, if_false]
        rw [ih (K ++ [r]) k _ (visited ++ [r.lid]) (proms ++ [outcomeOf r])
          (by
            simp only [addCall]
            simpa using hset)
          (by
            have : (K ++ [r]) ++ T = K ++ r :: T := by simp
            rw [this]
            exact hnd)
          (by simp only [addCall]; exact hkeys)
          hsimpleT
          (by
            intro ℓ h2
            rcases List.mem_append.mp h2 with h3 | h3
            · exact List.mem_append_left _ (hvisK ℓ h3)
            · have : ℓ = r := by simpa using h3
              subst this
              exact List.mem_append_right _ (List.mem_singleton_self _))
          hvisT
          hkT]
        simp [addCall, keepMulti, ho, bumpAll, List.append_assoc]

theorem emitCore_simple (rec : PVState → String → Option Nat → EmitRes × PVState)
    (s : PVState) (n : String) (p : Option Nat)
    (hl : ((lookupL s.listeners n).map Listener.lid).Nodup)
    (hk : (s.listeners.map Prod.fst).Nodup)
    (hs : ∀ ℓ ∈ lookupL s.listeners n, simpleBody ℓ.body = true) :
    (emitCore rec s n p).1
      = .ok (pendToksOf (lookupL s.listeners n)) (!(lookupL s.listeners n).isEmpty) ∧
    (emitCore rec s n p).2.invLog
      = s.invLog ++ (lookupL s.listeners n).map (fun ℓ => (ℓ.lid, p)) ∧
    (emitCore rec s n p).2.eventHistory = s.eventHistory ++ [⟨n, p⟩] ∧
    (emitCore rec s n p).2.iters = pushAllIters s.active s.iters ⟨n, p⟩ := by
  by_cases hkey : hasKeyL s.listeners n
  · have hrun := loopGo_run rec n p (lookupL s.listeners n) []
      ((lookupL s.listeners n).length + 1)
      { s with eventHistory := s.eventHistory ++ [⟨n, p⟩],
               iters := pushAllIters s.active s.iters ⟨n, p⟩ }
      [] [] (by simp) (by simpa using hl) (by simpa using hk) hs
      (by simp) (by simp) (by omega)
    simp only [emitCore, ensureLs, hkey, if_true]
    rw [hrun]
    simp only [List.nil_append]
    cases hclean : lookupL (setLs s.listeners n (keepMulti (lookupL s.listeners n))) n with
    | nil =>
      simp [hclean, pendToksFromOuts_map _ hs, map_outcome_isEmpty]
    | cons a as =>
      simp [hclean, pendToksFromOuts_map _ hs, map_outcome_isEmpty]
  · have hempty : lookupL s.listeners n = [] := lookupL_absent _ _ (by simpa using hkey)
    have hnotmem : n ∉ s.listeners.map Prod.fst :=
      not_mem_keys_of_hasKeyL_false _ _ (by simpa using hkey)
    have hkeys2 : ((s.listeners ++ [(n, [])]).map Prod.fst).Nodup := by
      rw [List.map_append]
      refine List.nodup_append.mpr ⟨hk, List.nodup_singleton _, ?_⟩
      intro a ha ha2
      simp only [List.map_cons, List.map_nil, List.mem_singleton] at ha2
      exact hnotmem (ha2 ▸ ha)
    have hset2 : lookupL (s.listeners ++ [(n, [])]) n = [] :=
      lookupL_append_absent _ _ _ (by simpa using hkey)
    have hrun := loopGo_run rec n p (lookupL s.listeners n) []
      ((lookupL (s.listeners ++ [(n, [])]) n).length + 1)
      { s with eventHistory := s.eventHistory ++ [⟨n, p⟩],
               iters := pushAllIters s.active s.iters ⟨n, p⟩,
               listeners := s.listeners ++ [(n, [])] }
      [] [] (by simp [hset2, hempty]) (by simpa using hl) (by simpa using hkeys2) hs
      (by simp) (by simp) (by simp [hset2, hempty])
    simp only [emitCore, ensureLs, hkey, Bool.false_eq_true, if_false]
    rw [hrun]
    simp only [List.nil_append]
    cases hclean : lookupL (setLs (s.listeners ++ [(n, [])]) n
        (keepMulti (lookupL s.listeners n))) n with
    | nil =>
      simp [hclean, pendToksFromOuts_map _ hs, map_outcome_isEmpty, hempty,
        pendToksFromOuts, pendToksOf]
    | cons a as =>
      simp [hclean, pendToksFromOuts_map _ hs, map_outcome_isEmpty, hempty,
        pendToksFromOuts, pendToksOf]

theorem emitCore_plain (rec : PVState → String → Option Nat → EmitRes × PVState)
    (s : PVState) (n : String) (p : Option Nat)
    (hb : ∀ ℓ ∈ lookupL s.listeners n, plainBody ℓ.body = true) :
    (emitCore rec s n p).2.eventHistory = s.eventHistory ++ [⟨n, p⟩] ∧
    (emitCore rec s n p).2.iters = pushAllIters s.active s.iters ⟨n, p⟩ := by
  by_cases hkey : hasKeyL s.listeners n
  · simp only [emitCore, ensureLs, hkey, if_true]
    obtain ⟨lr, s4, hres⟩ :
        ∃ lr s4, loopGo rec n p ((lookupL s.listeners n).length + 1)
          { s with eventHistory := s.eventHistory ++ [⟨n, p⟩],
                   iters := pushAllIters s.active s.iters ⟨n, p⟩ } [] [] = (lr, s4) :=
      ⟨_, _, rfl⟩
    have hkeep := loopGo_keeps rec n p ((lookupL s.listeners n).length + 1)
      { s with eventHistory := s.eventHistory ++ [⟨n, p⟩],
               iters := pushAllIters s.active s.iters ⟨n, p⟩ } [] []
      (by simpa using hb)
    rw [hres] at hkeep
    simp only [] at hkeep
    rw [hres]
    rcases lr with proms | proms | _
    · cases hclean : lookupL s4.listeners n with
      | nil => simp [hclean, hkeep.1, hkeep.2]
      | cons a as => simp [hclean, hkeep.1, hkeep.2]
    · simp [hkeep.1, hkeep.2]
    · simp [hkeep.1, hkeep.2]
  · have hset2 : lookupL (s.listeners ++ [(n, [])]) n = [] :=
      lookupL_append_absent _ _ _ (by simpa using hkey)
    simp only [emitCore, ensureLs, hkey, Bool.false_eq_true, if_false]
    obtain ⟨lr, s4, hres⟩ :
        ∃ lr s4, loopGo rec n p ((lookupL (s.listeners ++ [(n, [])]) n).length + 1)
          { s with eventHistory := s.eventHistory ++ [⟨n, p⟩],
                   iters := pushAllIters s.active s.iters ⟨n, p⟩,
                   listeners := s.listeners ++ [(n, [])] } [] [] = (lr, s4) :=
      ⟨_, _, rfl⟩
    have hkeep := loopGo_keeps rec n p ((lookupL (s.listeners ++ [(n, [])]) n).length + 1)
      { s with eventHistory := s.eventHistory ++ [⟨n, p⟩],
               iters := pushAllIters s.active s.iters ⟨n, p⟩,
               listeners := s.listeners ++ [(n, [])] } [] []
      (by simp [hset2])
    rw [hres] at hkeep
    simp only [] at hkeep
    rw [hres]
    rcases lr with proms | proms | _
    · cases hclean : lookupL s4.listeners n with
      | nil => simp [hclean, hkeep.1, hkeep.2]
      | cons a as => simp [hclean, hkeep.1, hkeep.2]
    · simp [hkeep.1, hkeep.2]
    · simp [hkeep.1, hkeep.2]

/-! The replay scenario: phase lemmas for claim C1. -/

theorem emitP_noLs (s : PVState) (e : EventRec) (hls : s.listeners = []) :
    emitP s e = { s with eventHistory := s.eventHistory ++ [e],
                         iters := pushAllIters s.active s.iters e } := by
  simp [emitP, emitFuel, emitCore, ensureLs, hasKeyL, hls, loopGo, firstUnvisited,
    lookupL, removeKeyL]

theorem foldl_emitP_init (pre : List EventRec) :
    ∀ H : List EventRec,
    pre.foldl emitP { initState with eventHistory := H } =
      { initState with eventHistory := H ++ pre } := by
  induction pre with
  | nil => intro H; simp
  | cons e rest ih =>
    intro H
    have hstep : emitP { initState with eventHistory := H } e =
        { initState with eventHistory := H ++ [e] } := by
      rw [emitP_noLs _ _ rfl]
      simp [initState, pushAllIters]
    rw [List.foldl_cons, hstep, ih (H ++ [e])]
    simp

theorem repN_drain (q : List EventRec) :
    ∀ (H : List EventRec) (D : List TravRes),
    repN q.length (fun s => nextFn s 0) (baseSt H q .idle D) =
      baseSt H [] .idle (D ++ q.map .ev) := by
  induction q with
  | nil => intro H D; simp [repN]
  | cons e rest ih =>
    intro H D
    have hstep : nextFn (baseSt H (e :: rest) .idle D) 0 =
        baseSt H rest .idle (D ++ [.ev e]) := by
      simp [nextFn, baseSt, updIter, nextOne]
    rw [List.length_cons, repN, hstep, ih]
    simp

theorem foldl_live (live : List EventRec) :
    ∀ (H : List EventRec) (D : List TravRes),
    live.foldl (fun s e => emitP (nextFn s 0) e) (baseSt H [] .idle D) =
      baseSt (H ++ live) [] .idle (D ++ live.map .ev) := by
  induction live with
  | nil => intro H D; simp
  | cons e rest ih =>
    intro H D
    have h1 : nextFn (baseSt H [] .idle D) 0 = baseSt H [] .waitingLive D := by
      simp [nextFn, baseSt, updIter, nextOne]
    have h2 : emitP (baseSt H [] .waitingLive D) e =
        baseSt (H ++ [e]) [] .idle (D ++ [.ev e]) := by
      rw [emitP_noLs _ _ rfl]
      simp [baseSt, pushAllIters, updIter, pushOne]
    rw [List.foldl_cons, h1, h2, ih]
    simp

theorem returnF_active (s2 : PVState) (i : Nat) (u : Option String) :
    (returnF s2 i u).active = s2.active.filter (fun j => j ≠ i) := by
  rcases u with _ | vv
  · rfl
  · simp only [returnF]
    split
    · rfl
    · simp only [settleEnd]
      split
      · rfl
      · rfl

/-! The ten claims. -/

/-- C1: emissions e1..en issued before a traversal starts are replayed to a
traversal created afterwards exactly in order (its backlog is seeded from a
snapshot of the history), each later live emission is then delivered in
emission order, and once the future resolves and the backlog is drained the
traversal receives the terminal signal carrying the future's settled value,
which is also the value observed by awaiters of the object. -/
theorem c1_replay_live_terminal (pre live : List EventRec) (v : String) :
    deliveredOf (scenC1 pre live v) 0
      = (pre ++ live).map TravRes.ev ++ [TravRes.term (some v)] ∧
    (scenC1 pre live v).promise = some (Settled.ok v) := by
  have hA : pre.foldl emitP initState = { initState with eventHistory := pre } := by
    simpa using foldl_emitP_init pre []
  have hB : (createIterator { initState with eventHistory := pre }).2
      = baseSt pre pre .idle [] := by
    simp [createIterator, baseSt, initState]
  have hC : repN pre.length (fun s => nextFn s 0) (baseSt pre pre .idle [])
      = baseSt pre [] .idle (pre.map .ev) := by
    simpa using repN_drain pre pre []
  have hD : live.foldl (fun s e => emitP (nextFn s 0) e) (baseSt pre [] .idle (pre.map .ev))
      = baseSt (pre ++ live) [] .idle (pre.map .ev ++ live.map .ev) :=
    foldl_live live pre (pre.map .ev)
  simp only [scenC1, hA, hB, hC, hD]
  constructor
  · simp [resolveF, settleEnd, baseSt, settleOne, nextFn, updIter, nextOne, deliveredOf,
      lookupIts, List.map_append, List.append_assoc]
  · simp [resolveF, settleEnd, baseSt, settleOne, nextFn, updIter, nextOne]

/-- C2 counterexample: close a traversal with the value manual while the
future is unsettled, then let the producer resolve with produced; awaiters
of the object observe produced, not manual, because the iterator's return
only fires endResolver (the iterators' terminal signal), never the outer
promise's resolve. -/
theorem c2_counterexample :
    (resolveF (returnF (createIterator initState).2 0 (some "manual")) "produced").promise
      = some (Settled.ok "produced") ∧
    ¬ (resolveF (returnF (createIterator initState).2 0 (some "manual")) "produced").promise
      = some (Settled.ok "manual") := by
  exact ⟨rfl, by decide⟩

/-- C2 amended: closing a traversal with a value before settlement settles
the endPromise with that value, so every traversal's terminal signal carries
it, but the future itself is untouched: isDone stays false, the promise cell
is unchanged, and a later resolve by the producer settles awaiters with the
producer's value. -/
theorem c2_close_sets_terminal_not_future (s : PVState) (i : Nat) (v w : String)
    (hend : s.endP = none) (hdone : s.isDone = false) :
    (returnF s i (some v)).endP = some v ∧
    (returnF s i (some v)).promise = s.promise ∧
    (returnF s i (some v)).isDone = false ∧
    (s.promise = none → (resolveF (returnF s i (some v)) w).promise = some (Settled.ok w)) := by
  refine ⟨?_, ?_, ?_, ?_⟩
  · simp [returnF, settleEnd, hend, hdone]
  · simp [returnF, settleEnd, hend, hdone]
  · simp [returnF, settleEnd, hend, hdone]
  · intro hp
    simp [returnF, settleEnd, resolveF, hend, hdone, hp]

/-- C2 amended witness. -/
theorem c2_close_witness :
    (returnF (createIterator initState).2 0 (some "m")).endP = some "m" ∧
    (returnF (createIterator initState).2 0 (some "m")).promise
      = ((createIterator initState).2).promise ∧
    (returnF (createIterator initState).2 0 (some "m")).isDone = false ∧
    (((createIterator initState).2).promise = none →
      (resolveF (returnF (createIterator initState).2 0 (some "m")) "p").promise
        = some (Settled.ok "p")) :=
  c2_close_sets_terminal_not_future (createIterator initState).2 0 "m" "p" rfl rfl

/-- C3 counterexample: a producer that only calls fail x leaves a pending
advance suspended forever: the promise cell rejects with x, but the waiting
consumer has received nothing, is still waiting, and the endPromise that
could release it is still unsettled. -/
theorem c3_counterexample :
    (rejectF (nextFn (createIterator initState).2 0) "x").promise = some (Settled.err "x") ∧
    deliveredOf (rejectF (nextFn (createIterator initState).2 0) "x") 0 = [] ∧
    waitOf (rejectF (nextFn (createIterator initState).2 0) "x") 0 = some WaitSt.waitingLive ∧
    (rejectF (nextFn (createIterator initState).2 0) "x").endP = none := by
  exact ⟨rfl, rfl, rfl, rfl⟩

/-- C3 amended: fail settles every awaiter of the object with the rejection,
but delivers no terminal signal to traversals: reject touches only the outer
promise cell, leaving every consumer state, the endPromise, the history and
the consumer registry exactly unchanged, so a pending advance stays
suspended until some later emission, close, or resolve. -/
theorem c3_reject_only_settles_awaiters (s : PVState) (e : String) :
    (rejectF s e).iters = s.iters ∧
    (rejectF s e).endP = s.endP ∧
    (rejectF s e).eventHistory = s.eventHistory ∧
    (rejectF s e).active = s.active ∧
    (rejectF s e).promise = (match s.promise with
      | none => some (Settled.err e)
      | some o => some o) := by
  exact ⟨rfl, rfl, rfl, rfl, rfl⟩

/-- C4 counterexample: a once listener whose callback synchronously re-emits
the same event during its own invocation is invoked twice by a single
external emit, because the source deletes the record only after the
invocation has returned; the re-entrant emit still sees the record in the
live set.  The emit nonetheless completes normally. -/
theorem c4_counterexample :
    callsOf ((emitFuel 2 (onceF initState "e" 0 (Body.reemitOnce "e" none)) "e" none).2).calls 0
      = [none, none] ∧
    (callsOf ((emitFuel 2 (onceF initState "e" 0 (Body.reemitOnce "e" none)) "e" none).2).calls 0).length
      = 2 ∧
    (emitFuel 2 (onceF initState "e" 0 (Body.reemitOnce "e" none)) "e" none).1
      = EmitRes.ok [] true := by
  exact ⟨rfl, rfl, rfl⟩

/-- C4 amended: a once listener that does not re-enter emit during its own
invocation is invoked exactly once with the first emission's payload; the
record is deleted right after its invocation returns (before its completion
is awaited), so a second emit of the same event never reaches it. -/
theorem c4_once_removed_before_later_emits (p1 p2 : Option Nat) (b : Body)
    (hb : simpleBody b = true) :
    callsOf ((emitFuel 1 ((emitFuel 1 (onceF initState "e" 5 b) "e" p1).2) "e" p2).2).calls 5
      = [p1] := by
  rcases b with _ | t | _ | _
  · simp [onceF, addL, hasKeyL, setLs, lookupL, emitFuel, emitCore, ensureLs, loopGo,
      firstUnvisited, runBodyCore, addCall, bumpCalls, callsOf, removeLid, removeKeyL,
      pushAllIters, initState]
  · simp [onceF, addL, hasKeyL, setLs, lookupL, emitFuel, emitCore, ensureLs, loopGo,
      firstUnvisited, runBodyCore, addCall, bumpCalls, callsOf, removeLid, removeKeyL,
      pushAllIters, initState]
  · simp [simpleBody] at hb
  · simp [simpleBody] at hb

/-- C4 amended witness. -/
theorem c4_once_removed_witness :
    callsOf ((emitFuel 1 ((emitFuel 1 (onceF initState "e" 5 Body.syncB) "e" (some 1)).2)
        "e" (some 2)).2).calls 5 = [some 1] :=
  c4_once_removed_before_later_emits (some 1) (some 2) Body.syncB rfl

/-- C5: emit invokes exactly the listeners registered for the event name at
dispatch time, in registration order, passing each the payload (the global
invocation log is extended by precisely that sequence), and the promise
returned by emit is the Promise.all barrier over exactly the pending
completions of those listeners: it settles only once every collected
completion has settled, then yields whether any listener was invoked.
Stated for listeners that do not unregister others or re-enter emit. -/
theorem c5_dispatch_order_barrier (s : PVState) (n : String) (p : Option Nat) (f : Nat)
    (hl : ((lookupL s.listeners n).map Listener.lid).Nodup)
    (hk : (s.listeners.map Prod.fst).Nodup)
    (hs : ∀ ℓ ∈ lookupL s.listeners n, simpleBody ℓ.body = true) :
    (emitFuel (f + 1) s n p).2.invLog
      = s.invLog ++ (lookupL s.listeners n).map (fun ℓ => (ℓ.lid, p)) ∧
    (emitFuel (f + 1) s n p).1
      = EmitRes.ok (pendToksOf (lookupL s.listeners n)) (!(lookupL s.listeners n).isEmpty) := by
  have h := emitCore_simple (emitFuel f) s n p hl hk hs
  exact ⟨h.2.1, h.1⟩

/-- C5 witness: two persistent asynchronous listeners registered on the same
name are both invoked, in registration order, and emit awaits both pending
completions. -/
theorem c5_dispatch_witness :
    (emitFuel 1 (onF (onF initState "e" 1 (Body.asyncTok 7)) "e" 2 (Body.asyncTok 8))
        "e" (some 5)).2.invLog
      = (onF (onF initState "e" 1 (Body.asyncTok 7)) "e" 2 (Body.asyncTok 8)).invLog
        ++ (lookupL (onF (onF initState "e" 1 (Body.asyncTok 7)) "e" 2
            (Body.asyncTok 8)).listeners "e").map (fun ℓ => (ℓ.lid, some 5)) ∧
    (emitFuel 1 (onF (onF initState "e" 1 (Body.asyncTok 7)) "e" 2 (Body.asyncTok 8))
        "e" (some 5)).1
      = EmitRes.ok (pendToksOf (lookupL (onF (onF initState "e" 1 (Body.asyncTok 7)) "e" 2
          (Body.asyncTok 8)).listeners "e"))
        (!(lookupL (onF (onF initState "e" 1 (Body.asyncTok 7)) "e" 2
          (Body.asyncTok 8)).listeners "e").isEmpty) :=
  c5_dispatch_order_barrier (onF (onF initState "e" 1 (Body.asyncTok 7)) "e" 2 (Body.asyncTok 8))
    "e" (some 5) 0 (by decide) (by decide) (by decide)

/-- C6 counterexample: after resolve a, a second resolve b is not a no-op:
awaiters and the end promise keep the first settlement a, but the public
value field is overwritten to b, contradicting the claim that the recorded
terminal state is that of the first settlement. -/
theorem c6_counterexample :
    (resolveF (resolveF initState "a") "b").value = some "b" ∧
    ¬ (resolveF (resolveF initState "a") "b").value = some "a" ∧
    (resolveF (resolveF initState "a") "b").promise = some (Settled.ok "a") ∧
    (resolveF (resolveF initState "a") "b").endP = some "a" := by
  exact ⟨rfl, by decide, rfl, rfl⟩

/-- C6 amended: the outcome observed by awaiters and the endPromise value do
settle at most once: once the promise cell is settled, later resolve or
reject calls leave it unchanged, and once the endPromise is settled a later
resolve leaves it unchanged; however a later resolve still overwrites the
public value field and re-sets isDone. -/
theorem c6_first_settlement_wins_for_awaiters (s : PVState) (o : Settled) (u : String)
    (v e : String) (hp : s.promise = some o) (he : s.endP = some u) :
    (resolveF s v).promise = some o ∧
    (rejectF s e).promise = some o ∧
    (resolveF s v).endP = some u ∧
    (resolveF s v).value = some v ∧
    (resolveF s v).isDone = true := by
  refine ⟨?_, ?_, ?_, ?_, ?_⟩ <;> simp [resolveF, rejectF, settleEnd, hp, he]

/-- C6 amended witness. -/
theorem c6_first_settlement_witness :
    (resolveF (resolveF initState "a") "b").promise = some (Settled.ok "a") ∧
    (rejectF (resolveF initState "a") "x").promise = some (Settled.ok "a") ∧
    (resolveF (resolveF initState "a") "b").endP = some "a" ∧
    (resolveF (resolveF initState "a") "b").value = some "b" ∧
    (resolveF (resolveF initState "a") "b").isDone = true :=
  c6_first_settlement_wins_for_awaiters (resolveF initState "a") (Settled.ok "a") "a" "b" "x"
    rfl rfl

/-- C7 counterexample: a traversal closed while its backlog still holds an
event record does not return the terminal signal on the next advance: the
queue check of next() runs first, so the backlog event is still yielded
after close. -/
theorem c7_counterexample :
    deliveredOf (nextFn (returnF (createIterator (emitP initState ⟨"e", none⟩)).2 0
        (some "v")) 0) 0
      = [TravRes.ev ⟨"e", none⟩] ∧
    ¬ deliveredOf (nextFn (returnF (createIterator (emitP initState ⟨"e", none⟩)).2 0
        (some "v")) 0) 0
      = [TravRes.term (some "v")] := by
  exact ⟨rfl, by decide⟩

/-- C7 amended: close removes the traversal from the active registry, so no
later emission is ever delivered to it (its state is untouched by emit);
advance calls after close first drain any remaining backlog, and once the
backlog is empty and the endPromise is settled, every advance returns the
terminal signal, idempotently. -/
theorem c7_closed_traversal (s : PVState) (i f : Nat) (n : String) (p : Option Nat)
    (v : String) (w : WaitSt) (D : List TravRes)
    (hact : i ∉ s.active)
    (hb : ∀ ℓ ∈ lookupL s.listeners n, plainBody ℓ.body = true)
    (hit : lookupIts s.iters i = some ⟨[], w, D⟩)
    (hend : s.endP = some v) :
    lookupIts ((emitFuel (f + 1) s n p).2).iters i = some ⟨[], w, D⟩ ∧
    deliveredOf (nextFn s i) i = D ++ [TravRes.term (some v)] ∧
    deliveredOf (nextFn (nextFn s i) i) i
      = D ++ [TravRes.term (some v), TravRes.term (some v)] ∧
    (∀ s2 u, i ∉ (returnF s2 i u).active) := by
  refine ⟨?_, ?_, ?_, ?_⟩
  · have h := (emitCore_plain (emitFuel f) s n p hb).2
    rw [show emitFuel (f + 1) s n p = emitCore (emitFuel f) s n p from rfl, h,
      pushAllIters_not_mem _ _ _ _ hact, hit]
  · simp [deliveredOf, nextFn, lookupIts_updIter_self, hit, hend, nextOne]
  · simp [deliveredOf, nextFn, lookupIts_updIter_self, hit, hend, nextOne]
  · intro s2 u
    rw [returnF_active]
    simp

/-- C7 amended witness. -/
theorem c7_closed_witness :
    lookupIts ((emitFuel 1 (returnF (createIterator initState).2 0 (some "u")) "e" none).2).iters 0
      = some ⟨[], WaitSt.idle, []⟩ ∧
    deliveredOf (nextFn (returnF (createIterator initState).2 0 (some "u")) 0) 0
      = [] ++ [TravRes.term (some "u")] ∧
    deliveredOf (nextFn (nextFn (returnF (createIterator initState).2 0 (some "u")) 0) 0) 0
      = [] ++ [TravRes.term (some "u"), TravRes.term (some "u")] ∧
    (∀ s2 u, 0 ∉ (returnF s2 0 u).active) :=
  c7_closed_traversal (returnF (createIterator initState).2 0 (some "u")) 0 0 "e" none
    "u" WaitSt.idle [] (by decide) (by decide) rfl rfl

/-- C8: emit always appends the event record to the history and delivers it
to every active traversal (resolving a pending advance or appending to the
backlog), whether or not listeners are registered; the boolean yielded by
emit is false exactly when no listener was registered for the name at
dispatch time and true otherwise.  Stated for listeners that do not
unregister others or re-enter emit. -/
theorem c8_emit_boolean_history_delivery (s : PVState) (n : String) (p : Option Nat) (f : Nat)
    (hl : ((lookupL s.listeners n).map Listener.lid).Nodup)
    (hk : (s.listeners.map Prod.fst).Nodup)
    (hs : ∀ ℓ ∈ lookupL s.listeners n, simpleBody ℓ.body = true)
    (ha : s.active.Nodup) :
    (emitFuel (f + 1) s n p).1
      = EmitRes.ok (pendToksOf (lookupL s.listeners n)) (!(lookupL s.listeners n).isEmpty) ∧
    (emitFuel (f + 1) s n p).2.eventHistory = s.eventHistory ++ [⟨n, p⟩] ∧
    ∀ i ∈ s.active, lookupIts ((emitFuel (f + 1) s n p).2).iters i
      = (lookupIts s.iters i).map (pushOne ⟨n, p⟩) := by
  have h := emitCore_simple (emitFuel f) s n p hl hk hs
  refine ⟨h.1, h.2.2.1, fun i hi => ?_⟩
  rw [show emitFuel (f + 1) s n p = emitCore (emitFuel f) s n p from rfl, h.2.2.2,
    pushAllIters_mem _ _ _ _ hi ha]

/-- C8 witness: one listener and one active traversal (boolean true), and a
second instance with no listeners is covered by the same theorem at a state
whose listener set is empty. -/
theorem c8_emit_witness :
    (emitFuel 1 (createIterator (onF initState "e" 1 Body.syncB)).2 "e" none).1
      = EmitRes.ok (pendToksOf (lookupL ((createIterator (onF initState "e" 1
          Body.syncB)).2).listeners "e"))
        (!(lookupL ((createIterator (onF initState "e" 1 Body.syncB)).2).listeners "e").isEmpty) ∧
    (emitFuel 1 (createIterator (onF initState "e" 1 Body.syncB)).2 "e" none).2.eventHistory
      = ((createIterator (onF initState "e" 1 Body.syncB)).2).eventHistory ++ [⟨"e", none⟩] ∧
    ∀ i ∈ ((createIterator (onF initState "e" 1 Body.syncB)).2).active,
      lookupIts ((emitFuel 1 (createIterator (onF initState "e" 1 Body.syncB)).2
          "e" none).2).iters i
        = (lookupIts ((createIterator (onF initState "e" 1 Body.syncB)).2).iters i).map
            (pushOne ⟨"e", none⟩) :=
  c8_emit_boolean_history_delivery (createIterator (onF initState "e" 1 Body.syncB)).2
    "e" none 0 (by decide) (by decide) (by decide) (by decide)

/-- C9: even when listeners throw (so the promise returned by emit rejects),
the emitted event record has already been appended to the history and
delivered to every active traversal before any listener ran: the post-state
history is the old history plus the record, and every active traversal has
received it, for every listener configuration that may throw. -/
theorem c9_failure_never_withholds_event (s : PVState) (n : String) (p : Option Nat) (f : Nat)
    (hb : ∀ ℓ ∈ lookupL s.listeners n, plainBody ℓ.body = true)
    (ha : s.active.Nodup) :
    (emitFuel (f + 1) s n p).2.eventHistory = s.eventHistory ++ [⟨n, p⟩] ∧
    ∀ i ∈ s.active, lookupIts ((emitFuel (f + 1) s n p).2).iters i
      = (lookupIts s.iters i).map (pushOne ⟨n, p⟩) := by
  have h := emitCore_plain (emitFuel f) s n p hb
  refine ⟨h.1, fun i hi => ?_⟩
  rw [show emitFuel (f + 1) s n p = emitCore (emitFuel f) s n p from rfl, h.2,
    pushAllIters_mem _ _ _ _ hi ha]

/-- C9 witness: a throwing listener makes emit reject, yet the event is in
the history and in the traversal's backlog. -/
theorem c9_failure_witness :
    (emitFuel 1 (createIterator (onF initState "e" 3 Body.throws)).2 "e" none).2.eventHistory
      = ((createIterator (onF initState "e" 3 Body.throws)).2).eventHistory ++ [⟨"e", none⟩] ∧
    ∀ i ∈ ((createIterator (onF initState "e" 3 Body.throws)).2).active,
      lookupIts ((emitFuel 1 (createIterator (onF initState "e" 3 Body.throws)).2
          "e" none).2).iters i
        = (lookupIts ((createIterator (onF initState "e" 3 Body.throws)).2).iters i).map
            (pushOne ⟨"e", none⟩) :=
  c9_failure_never_withholds_event (createIterator (onF initState "e" 3 Body.throws)).2
    "e" none 0 (by decide) (by decide)

/-- C10: traversals are mutually independent: a fresh iterator is seeded
with a snapshot of the history; an advance on traversal i never changes the
shared event history, the listener map, the active registry, either promise
cell, or the state (backlog, wait status, delivery log) of any other
traversal j. -/
theorem c10_traversal_independence (s : PVState) (i j : Nat) (hne : j ≠ i)
    (hfresh : ∀ q ∈ s.iters, q.1 ≠ s.nextIterId) :
    lookupIts ((createIterator s).2).iters (createIterator s).1
      = some ⟨s.eventHistory, WaitSt.idle, []⟩ ∧
    ((createIterator s).2).eventHistory = s.eventHistory ∧
    (nextFn s i).eventHistory = s.eventHistory ∧
    (nextFn s i).listeners = s.listeners ∧
    (nextFn s i).active = s.active ∧
    (nextFn s i).endP = s.endP ∧
    (nextFn s i).promise = s.promise ∧
    lookupIts (nextFn s i).iters j = lookupIts s.iters j := by
  refine ⟨?_, rfl, rfl, rfl, rfl, rfl, rfl, ?_⟩
  · exact lookupIts_append_fresh _ _ _ hfresh
  · exact lookupIts_updIter_other _ _ _ _ hne

/-- C10 witness. -/
theorem c10_independence_witness :
    lookupIts ((createIterator (createIterator initState).2).2).iters
        ((createIterator (createIterator initState).2).1)
      = some ⟨((createIterator initState).2).eventHistory, WaitSt.idle, []⟩ ∧
    ((createIterator (createIterator initState).2).2).eventHistory
      = ((createIterator initState).2).eventHistory ∧
    (nextFn (createIterator initState).2 0).eventHistory
      = ((createIterator initState).2).eventHistory ∧
    (nextFn (createIterator initState).2 0).listeners
      = ((createIterator initState).2).listeners ∧
    (nextFn (createIterator initState).2 0).active
      = ((createIterator initState).2).active ∧
    (nextFn (createIterator initState).2 0).endP
      = ((createIterator initState).2).endP ∧
    (nextFn (createIterator initState).2 0).promise
      = ((createIterator initState).2).promise ∧
    lookupIts (nextFn (createIterator initState).2 0).iters 1
      = lookupIts ((createIterator initState).2).iters 1 :=
  c10_traversal_independence (createIterator initState).2 0 1 (by decide) (by decide)

end PV
